import Mathlib

/-!
Verification of the versioned document store of the weblog repository
(`src/file_manager.py`): the `FileManager` class (versioned text blob with
optimistic concurrency control and positional patch application), the
single-region diff engine `calculate_diff`, and the `FileManagerPool`
registry.  Texts are modelled as `List Char`; the on-disk content of a
manager's file is the `content` field of the `FileManager` structure
(the code reads it back with `get_content` and writes it with
`update_full_content`; the hash/timestamp metadata of `load_metadata` is
I/O- and clock-dependent diagnostics not referenced by any claim).
Python integers in change operations are modelled as `Int`; the optional
`length` key (`change.get('length', 0)`) as `Option Int`.
-/

/-- A change operation, as consumed by `FileManager.apply_changes`:
the dict `{'type': ..., 'position': ..., 'length': ..., 'content': ...}`.
`length` is the only key read with a default (`change.get('length', 0)`),
so it alone is optional. -/
structure Change where
  type : String
  position : Int
  length : Option Int
  content : List Char
deriving DecidableEq

/-- The in-memory state of one `FileManager`: the text currently stored in
its file and the version counter.  `__init__` sets `version = 0`. -/
structure FileManager where
  content : List Char
  version : Nat
deriving DecidableEq

/-- `FileManager.__init__`: version starts at 0; the file's current bytes
(empty if the file was just created) become the content. -/
def initFileManager (content : List Char) : FileManager :=
  { content := content, version := 0 }

/-- `FileManager.increment_version`: `self.version += 1`. -/
def increment_version (fm : FileManager) : FileManager :=
  { fm with version := fm.version + 1 }

/-- `FileManager.validate_version`: `self.version == expected_version`. -/
def validate_version (fm : FileManager) (expected : Int) : Bool :=
  (fm.version : Int) == expected

/-- `FileManager.update_full_content`: write the new content, reload
metadata, increment the version, return `True`.  (The `except` branch
returning `False` is an I/O failure of the backing store.) -/
def update_full_content (fm : FileManager) (content : List Char) : FileManager × Bool :=
  (increment_version { fm with content := content }, true)

/-- Python slicing `s[a:]` for an arbitrary integer `a`: a non-negative
start index drops `a` elements; a negative one counts from the end,
clamped at the start of the string. -/
def pySliceFrom (s : List Char) (a : Int) : List Char :=
  if 0 ≤ a then s.drop a.toNat
  else s.drop ((s.length : Int) + a).toNat

/-- One iteration of the loop body of `FileManager.apply_changes`: a
`'replace'` change validates its position against the working text and
splices `content[:position] + new_content + content[position + length:]`;
any other `type` is skipped. -/
def applyOne (content : List Char) (change : Change) : Except String (List Char) :=
  if change.type = "replace" then
    let position := change.position
    let length := change.length.getD 0
    let new_content := change.content
    if position < 0 ∨ position > (content.length : Int) then
      .error "invalid_position"
    else
      .ok (content.take position.toNat ++ new_content ++
           pySliceFrom content (position + length))
  else
    .ok content

/-- The loop of `apply_changes` over an already-reversed change list:
apply each operation in turn, aborting on the first invalid position. -/
def applyOps : List Char → List Change → Except String (List Char)
  | content, [] => .ok content
  | content, c :: rest =>
    match applyOne content c with
    | .error e => .error e
    | .ok content' => applyOps content' rest

/-- `for change in reversed(changes): ...` — the whole splice loop of
`FileManager.apply_changes`, applied to the current content. -/
def applyChangesList (content : List Char) (changes : List Change) : Except String (List Char) :=
  applyOps content changes.reverse

/-- `FileManager.apply_changes`: validate the expected version if given,
run the splice loop on the current content, then persist via
`update_full_content`.  Returns the new state plus the `(success, message)`
pair the method returns. -/
def apply_changes (fm : FileManager) (changes : List Change) (expected_version : Option Int) :
    FileManager × Bool × String :=
  match expected_version with
  | some v =>
    if ¬ validate_version fm v then (fm, false, "version_mismatch")
    else
      match applyChangesList fm.content changes with
      | .error msg => (fm, false, msg)
      | .ok content =>
        let r := update_full_content fm content
        if r.2 then (r.1, true, "success") else (fm, false, "write_failed")
  | none =>
    match applyChangesList fm.content changes with
    | .error msg => (fm, false, msg)
    | .ok content =>
      let r := update_full_content fm content
      if r.2 then (r.1, true, "success") else (fm, false, "write_failed")

/-- The common-prefix scan of `calculate_diff`: the length of the longest
common leading run of the two texts (`while ... old[i] == new[i]: i += 1`). -/
def commonPrefixLen : List Char → List Char → Nat
  | a :: as, b :: bs => if a = b then commonPrefixLen as bs + 1 else 0
  | _, _ => 0

/-- `FileManager.calculate_diff`: the single-region diff.  Degenerate
empty-text cases first; otherwise strip the longest common prefix, then
the longest common suffix capped so the two regions never overlap, and
emit one replace operation for the differing middle (or none if the
middles coincide). -/
def calculate_diff (old_content new_content : List Char) : List Change :=
  if old_content = [] ∧ new_content ≠ [] then
    [{ type := "replace", position := 0, length := some 0, content := new_content }]
  else if old_content ≠ [] ∧ new_content = [] then
    [{ type := "replace", position := 0, length := some (old_content.length : Int),
       content := [] }]
  else
    let prefix_len := commonPrefixLen old_content new_content
    let max_suffix := min (old_content.length - prefix_len) (new_content.length - prefix_len)
    let suffix_len := min max_suffix (commonPrefixLen old_content.reverse new_content.reverse)
    let old_middle := (old_content.take (old_content.length - suffix_len)).drop prefix_len
    let new_middle := (new_content.take (new_content.length - suffix_len)).drop prefix_len
    if old_middle ≠ new_middle then
      [{ type := "replace", position := (prefix_len : Int),
         length := some (old_middle.length : Int), content := new_middle }]
    else []

/-- Association-list lookup standing in for `file_path in self.managers` /
`self.managers[file_path]` on the pool's dict. -/
def lookupFM : List (String × FileManager) → String → Option FileManager
  | [], _ => none
  | (k, m) :: rest, fp => if k = fp then some m else lookupFM rest fp

/-- `FileManagerPool`: the `managers` dict mapping file paths to their
`FileManager`. -/
structure FileManagerPool where
  managers : List (String × FileManager)
deriving DecidableEq

/-- `FileManagerPool.get_manager`: construct (loading the file's current
bytes, supplied by `disk`) and store a manager on first access to a path,
then return the stored manager.  Returns the updated pool with the
manager. -/
def FileManagerPool.get_manager (disk : String → List Char) (pool : FileManagerPool)
    (file_path : String) : FileManagerPool × FileManager :=
  match lookupFM pool.managers file_path with
  | some m => (pool, m)
  | none =>
    let m := initFileManager (disk file_path)
    ({ managers := (file_path, m) :: pool.managers }, m)

/-! ### Helper lemmas about the common-prefix/common-suffix scans -/

theorem commonPrefixLen_le_left : ∀ a b : List Char, commonPrefixLen a b ≤ a.length
  | [], _ => by simp [commonPrefixLen]
  | _ :: _, [] => by simp [commonPrefixLen]
  | a :: as, b :: bs => by
    rw [commonPrefixLen]
    split
    · exact Nat.succ_le_succ (commonPrefixLen_le_left as bs)
    · exact Nat.zero_le _

theorem commonPrefixLen_le_right : ∀ a b : List Char, commonPrefixLen a b ≤ b.length
  | [], _ => by simp [commonPrefixLen]
  | _ :: _, [] => by simp [commonPrefixLen]
  | a :: as, b :: bs => by
    rw [commonPrefixLen]
    split
    · exact Nat.succ_le_succ (commonPrefixLen_le_right as bs)
    · exact Nat.zero_le _

theorem take_commonPrefixLen_eq : ∀ a b : List Char,
    a.take (commonPrefixLen a b) = b.take (commonPrefixLen a b)
  | [], b => by simp [commonPrefixLen]
  | _ :: _, [] => by simp [commonPrefixLen]
  | a :: as, b :: bs => by
    by_cases hab : a = b
    · subst hab
      rw [commonPrefixLen, if_pos rfl]
      simp only [List.take_succ_cons]
      rw [take_commonPrefixLen_eq as bs]
    · simp [commonPrefixLen, hab]

theorem take_eq_take_of_le_cpl {a b : List Char} {n : Nat}
    (h : n ≤ commonPrefixLen a b) : a.take n = b.take n := by
  have h1 : (a.take (commonPrefixLen a b)).take n = a.take n := by
    rw [List.take_take, Nat.min_eq_left h]
  have h2 : (b.take (commonPrefixLen a b)).take n = b.take n := by
    rw [List.take_take, Nat.min_eq_left h]
  rw [← h1, ← h2, take_commonPrefixLen_eq]

theorem commonPrefixLen_self : ∀ a : List Char, commonPrefixLen a a = a.length
  | [] => rfl
  | a :: as => by simp [commonPrefixLen, commonPrefixLen_self as]

theorem drop_eq_drop_of_le_cpl_reverse {a b : List Char} {s : Nat}
    (h : s ≤ commonPrefixLen a.reverse b.reverse) :
    a.drop (a.length - s) = b.drop (b.length - s) := by
  have ha := List.rtake_eq_reverse_take_reverse a s
  have hb := List.rtake_eq_reverse_take_reverse b s
  unfold List.rtake at ha hb
  rw [ha, hb, take_eq_take_of_le_cpl h]

theorem take_drop_middle_decomp (A : List Char) (p s : Nat) (h : p + s ≤ A.length) :
    A = A.take p ++ ((A.take (A.length - s)).drop p ++ A.drop (A.length - s)) := by
  have h1 : (A.take (A.length - s)).take p = A.take p := by
    rw [List.take_take, Nat.min_eq_left (by omega)]
  have h3 := List.take_append_drop p (A.take (A.length - s))
  calc A = A.take (A.length - s) ++ A.drop (A.length - s) :=
        (List.take_append_drop _ _).symm
    _ = (A.take p ++ (A.take (A.length - s)).drop p) ++ A.drop (A.length - s) := by
        rw [← h1, h3]
    _ = A.take p ++ ((A.take (A.length - s)).drop p ++ A.drop (A.length - s)) :=
        List.append_assoc _ _ _

theorem eq_of_middles_eq {A B : List Char} {p s : Nat}
    (hpA : p + s ≤ A.length) (hpB : p + s ≤ B.length)
    (hpre : A.take p = B.take p)
    (hsuf : A.drop (A.length - s) = B.drop (B.length - s))
    (hmid : (A.take (A.length - s)).drop p = (B.take (B.length - s)).drop p) :
    A = B := by
  calc A = A.take p ++ ((A.take (A.length - s)).drop p ++ A.drop (A.length - s)) :=
        take_drop_middle_decomp A p s hpA
    _ = B.take p ++ ((B.take (B.length - s)).drop p ++ B.drop (B.length - s)) := by
        rw [hpre, hmid, hsuf]
    _ = B := (take_drop_middle_decomp B p s hpB).symm

theorem splice_reproduces {A B : List Char} {p s : Nat}
    (_hpA : p + s ≤ A.length) (hpB : p + s ≤ B.length)
    (hpre : A.take p = B.take p)
    (hsuf : A.drop (A.length - s) = B.drop (B.length - s)) :
    A.take p ++ (B.take (B.length - s)).drop p ++ A.drop (A.length - s) = B := by
  rw [List.append_assoc, hpre, hsuf]
  exact (take_drop_middle_decomp B p s hpB).symm

/-! ### Helper lemmas about the patch-application loop -/

theorem applyOne_replace_nat (content : List Char) (p l : Nat) (r : List Char)
    (hp : p ≤ content.length) :
    applyOne content ⟨"replace", (p : Int), some (l : Int), r⟩ =
      .ok (content.take p ++ r ++ content.drop (p + l)) := by
  have h1 : ((p : Int)).toNat = p := by omega
  have h2 : ((p : Int) + (l : Int)).toNat = p + l := by omega
  have h3 : ¬((p : Int) < 0 ∨ (p : Int) > (content.length : Int)) := by omega
  simp only [applyOne, if_pos rfl, Option.getD_some, if_neg h3, pySliceFrom,
    if_pos (by omega : (0 : Int) ≤ (p : Int) + (l : Int)), h1, h2]
  simp

theorem applyChangesList_singleton (content : List Char) (p l : Nat) (r : List Char)
    (hp : p ≤ content.length) :
    applyChangesList content [⟨"replace", (p : Int), some (l : Int), r⟩] =
      .ok (content.take p ++ r ++ content.drop (p + l)) := by
  show applyOps content [⟨"replace", (p : Int), some (l : Int), r⟩] = _
  rw [applyOps, applyOne_replace_nat content p l r hp]
  rfl

theorem roundtrip_core (A B : List Char) (p s : Nat)
    (hp : p = commonPrefixLen A B)
    (hs : s = min (min (A.length - p) (B.length - p))
            (commonPrefixLen A.reverse B.reverse)) :
    applyChangesList A
      (if (A.take (A.length - s)).drop p ≠ (B.take (B.length - s)).drop p then
        [{ type := "replace", position := (p : Int),
           length := some ((((A.take (A.length - s)).drop p).length : Nat) : Int),
           content := (B.take (B.length - s)).drop p }]
      else []) = .ok B := by
  have hpA : p ≤ A.length := hp ▸ commonPrefixLen_le_left A B
  have hpB : p ≤ B.length := hp ▸ commonPrefixLen_le_right A B
  have hsA : p + s ≤ A.length := by omega
  have hsB : p + s ≤ B.length := by omega
  have hsrev : s ≤ commonPrefixLen A.reverse B.reverse := by omega
  have hpre : A.take p = B.take p := by
    rw [hp]; exact take_commonPrefixLen_eq A B
  have hsuf : A.drop (A.length - s) = B.drop (B.length - s) :=
    drop_eq_drop_of_le_cpl_reverse hsrev
  by_cases hmid : (A.take (A.length - s)).drop p = (B.take (B.length - s)).drop p
  · rw [if_neg (not_not_intro hmid)]
    have hAB : A = B := eq_of_middles_eq hsA hsB hpre hsuf hmid
    rw [applyChangesList]
    simp [applyOps, hAB]
  · rw [if_pos hmid]
    have hlen : ((A.take (A.length - s)).drop p).length = A.length - s - p := by
      rw [List.length_drop, List.length_take, Nat.min_eq_left (by omega)]
    rw [applyChangesList_singleton A p _ _ hpA]
    have hidx : p + ((A.take (A.length - s)).drop p).length = A.length - s := by
      rw [hlen]; omega
    rw [hidx]
    rw [splice_reproduces hsA hsB hpre hsuf]

/-- Claim C1: for every pair of texts `A` and `B`, applying the change list
returned by `calculate_diff A B` to `A` with the splice loop of
`apply_changes` reproduces `B` exactly (round-trip law). -/
theorem diff_roundtrip (A B : List Char) :
    applyChangesList A (calculate_diff A B) = .ok B := by
  by_cases h1 : A = [] ∧ B ≠ []
  · obtain ⟨hA, hB⟩ := h1
    subst hA
    rw [calculate_diff, if_pos ⟨rfl, hB⟩]
    simp [applyChangesList, applyOps, applyOne, pySliceFrom]
  · by_cases h2 : A ≠ [] ∧ B = []
    · obtain ⟨hA, hB⟩ := h2
      subst hB
      rw [calculate_diff, if_neg h1, if_pos ⟨hA, rfl⟩]
      have h := applyChangesList_singleton A 0 A.length [] (Nat.zero_le _)
      simp only [Nat.cast_zero] at h
      rw [h]
      simp
    · rw [calculate_diff, if_neg h1, if_neg h2]
      exact roundtrip_core A B (commonPrefixLen A B) _ rfl rfl

/-! ### Helper lemmas about `apply_changes` outcomes -/

theorem apply_changes_spec (fm : FileManager) (changes : List Change)
    (expected : Option Int) :
    ((apply_changes fm changes expected).1 = fm ∧
       (apply_changes fm changes expected).2.1 = false) ∨
    ((apply_changes fm changes expected).1.version = fm.version + 1 ∧
       (apply_changes fm changes expected).2.1 = true) := by
  cases expected with
  | none =>
    cases hres : applyChangesList fm.content changes with
    | error msg => left; simp [apply_changes, hres]
    | ok c =>
      right
      simp [apply_changes, hres, update_full_content, increment_version]
  | some v =>
    by_cases hv : validate_version fm v
    · cases hres : applyChangesList fm.content changes with
      | error msg => left; simp [apply_changes, hres, hv]
      | ok c =>
        right
        simp [apply_changes, hres, hv, update_full_content, increment_version]
    · left; simp [apply_changes, hv]

theorem apply_changes_fail_unchanged (fm : FileManager) (changes : List Change)
    (expected : Option Int)
    (h : (apply_changes fm changes expected).2.1 = false) :
    (apply_changes fm changes expected).1 = fm := by
  rcases apply_changes_spec fm changes expected with ⟨h1, _⟩ | ⟨_, h2⟩
  · exact h1
  · rw [h] at h2; exact absurd h2 (by simp)

/-- Claim C2: in `apply_changes`, a `'replace'` operation fails with
`invalid_position` exactly when its position is negative or greater than
the length of the working text; any failed patch attempt leaves the
manager's version and stored content unchanged; and an in-bounds position
whose `position + length` runs past the end of the text truncates the
deletion at the end of the text instead of raising. -/
theorem replace_range_validation (content : List Char) (c : Change)
    (hc : c.type = "replace") :
    (applyOne content c = .error "invalid_position" ↔
       c.position < 0 ∨ c.position > (content.length : Int)) ∧
    (∀ (fm : FileManager) (changes : List Change) (expected : Option Int),
       (apply_changes fm changes expected).2.1 = false →
       (apply_changes fm changes expected).1 = fm) ∧
    (∀ (p l : Nat), c.position = (p : Int) → c.length = some (l : Int) →
       p ≤ content.length → content.length ≤ p + l →
       applyOne content c = .ok (content.take p ++ c.content)) := by
  refine ⟨?_, apply_changes_fail_unchanged, ?_⟩
  · constructor
    · intro h
      by_contra hpos
      rw [applyOne, if_pos hc, if_neg hpos] at h
      exact absurd h (by simp)
    · intro hpos
      rw [applyOne, if_pos hc, if_pos hpos]
  · intro p l hp hl hple hpast
    have h3 : ¬(c.position < 0 ∨ c.position > (content.length : Int)) := by
      rw [hp]; omega
    have h1 : (c.position).toNat = p := by rw [hp]; omega
    have h2 : (c.position + (c.length).getD 0).toNat = p + l := by
      rw [hp, hl]; simp; omega
    have h4 : (0 : Int) ≤ c.position + (c.length).getD 0 := by
      rw [hp, hl]; simp; omega
    rw [applyOne, if_pos hc, if_neg h3, pySliceFrom, if_pos h4, h1, h2,
      List.drop_eq_nil_of_le hpast, List.append_nil]

/-- Claim C3: `apply_changes` called with an expected version different
from the manager's current version fails with `version_mismatch` and
mutates nothing: the returned state is exactly the state before the
call. -/
theorem version_conflict_no_mutation (fm : FileManager) (changes : List Change)
    (v : Int) (h : (fm.version : Int) ≠ v) :
    apply_changes fm changes (some v) = (fm, false, "version_mismatch") := by
  simp [apply_changes, validate_version, h]

/-- Claim C4: the version counter starts at 0 at construction, moves up by
exactly 1 on every successful mutation (`update_full_content` or a
successful `apply_changes`), by 0 on a failed one, and never decreases;
two sequential full replacements on a fresh manager yield versions 1
then 2. -/
theorem version_counter_discipline :
    (∀ c : List Char, (initFileManager c).version = 0) ∧
    (∀ (fm : FileManager) (c : List Char),
       (update_full_content fm c).1.version = fm.version + 1 ∧
       (update_full_content fm c).2 = true) ∧
    (∀ (fm : FileManager) (changes : List Change) (expected : Option Int),
       ((apply_changes fm changes expected).2.1 = true →
          (apply_changes fm changes expected).1.version = fm.version + 1) ∧
       ((apply_changes fm changes expected).2.1 = false →
          (apply_changes fm changes expected).1.version = fm.version) ∧
       fm.version ≤ (apply_changes fm changes expected).1.version) ∧
    (∀ c0 c1 c2 : List Char,
       (update_full_content (initFileManager c0) c1).1.version = 1 ∧
       (update_full_content (update_full_content (initFileManager c0) c1).1
          c2).1.version = 2) := by
  refine ⟨fun c => rfl, fun fm c => ⟨rfl, rfl⟩, ?_, fun c0 c1 c2 => ⟨rfl, rfl⟩⟩
  intro fm changes expected
  rcases apply_changes_spec fm changes expected with ⟨h1, h2⟩ | ⟨h1, h2⟩
  · refine ⟨fun hsucc => ?_, fun _ => by rw [h1], by rw [h1]⟩
    rw [hsucc] at h2; exact absurd h2 (by simp)
  · refine ⟨fun _ => h1, fun hfail => ?_, by omega⟩
    rw [hfail] at h2; exact absurd h2 (by simp)

/-- Claim C5: `apply_changes` walks the change list in reverse of
submission order (`for change in reversed(changes)`), so the
last-submitted operation is spliced first; for a list submitted in
ascending position order this is descending-position application, and a
lower-position operation's coordinates, measured in the original
pre-patch text, stay valid after the higher-position operation has been
applied: both regions of the final text sit at their original
coordinates. -/
theorem patch_application_order :
    (∀ (content : List Char) (changes : List Change) (c : Change),
       applyChangesList content (changes ++ [c]) =
         match applyOne content c with
         | .error e => .error e
         | .ok content' => applyChangesList content' changes) ∧
    (∀ (content ra rb : List Char) (pa la pb lb : Nat),
       pa + la ≤ pb → pb + lb ≤ content.length →
       applyChangesList content
         [{ type := "replace", position := (pa : Int), length := some (la : Int),
            content := ra },
          { type := "replace", position := (pb : Int), length := some (lb : Int),
            content := rb }] =
       .ok (content.take pa ++ ra ++ ((content.take pb).drop (pa + la)) ++ rb ++
            content.drop (pb + lb))) := by
  constructor
  · intro content changes c
    rw [applyChangesList, List.reverse_append, List.reverse_singleton,
      List.singleton_append, applyOps]
    cases applyOne content c with
    | error e => rfl
    | ok content' => rfl
  · intro content ra rb pa la pb lb hab hb
    have hpb : pb ≤ content.length := by omega
    have hrev : ([⟨"replace", (pa : Int), some (la : Int), ra⟩,
        ⟨"replace", (pb : Int), some (lb : Int), rb⟩] : List Change).reverse =
        [⟨"replace", (pb : Int), some (lb : Int), rb⟩,
         ⟨"replace", (pa : Int), some (la : Int), ra⟩] := rfl
    have hlen1 : (content.take pb).length = pb := by
      rw [List.length_take, Nat.min_eq_left hpb]
    have hpa : pa ≤ (content.take pb ++ rb ++ content.drop (pb + lb)).length := by
      simp only [List.length_append, hlen1]
      omega
    have h1 := applyOne_replace_nat content pb lb rb hpb
    have h2 := applyOne_replace_nat
      (content.take pb ++ rb ++ content.drop (pb + lb)) pa la ra hpa
    have e1 : (content.take pb ++ rb ++ content.drop (pb + lb)).take pa
        = content.take pa := by
      rw [List.append_assoc, List.take_append_of_le_length (by omega),
        List.take_take, Nat.min_eq_left (by omega)]
    have e2 : (content.take pb ++ rb ++ content.drop (pb + lb)).drop (pa + la)
        = (content.take pb).drop (pa + la) ++ (rb ++ content.drop (pb + lb)) := by
      rw [List.append_assoc, List.drop_append_of_le_length (by omega)]
    rw [applyChangesList, hrev, applyOps, h1]
    show applyOps (content.take pb ++ rb ++ content.drop (pb + lb))
        [⟨"replace", (pa : Int), some (la : Int), ra⟩] = _
    rw [applyOps, h2]
    show Except.ok
        ((content.take pb ++ rb ++ content.drop (pb + lb)).take pa ++ ra ++
         (content.take pb ++ rb ++ content.drop (pb + lb)).drop (pa + la)) = _
    rw [e1, e2]
    simp [List.append_assoc]

/-- Claim C6: the degenerate empty-text cases of `calculate_diff`: an
empty old text with a non-empty new text yields a single insertion of all
of the new text at position 0 with length 0; the symmetric case yields a
single deletion of all of the old text; in particular for the texts `""`
and `"hello"`. -/
theorem diff_degenerate_cases :
    (∀ newC : List Char, newC ≠ [] →
       calculate_diff [] newC =
         [{ type := "replace", position := 0, length := some 0, content := newC }]) ∧
    (∀ oldC : List Char, oldC ≠ [] →
       calculate_diff oldC [] =
         [{ type := "replace", position := 0, length := some (oldC.length : Int),
            content := [] }]) ∧
    calculate_diff [] "hello".toList =
      [{ type := "replace", position := 0, length := some 0,
         content := "hello".toList }] ∧
    calculate_diff "hello".toList [] =
      [{ type := "replace", position := 0, length := some 5, content := [] }] := by
    refine ⟨?_, ?_, ?_, ?_⟩
    · intro newC h
      rw [calculate_diff, if_pos ⟨rfl, h⟩]
    · intro oldC h
      rw [calculate_diff, if_neg (by simp [h]), if_pos ⟨h, rfl⟩]
    · rfl
    · rfl

/-- Claim C7: `calculate_diff` always returns a change list of at most one
element, and on two equal texts it returns the empty list. -/
theorem diff_result_shape (A B : List Char) :
    (calculate_diff A B).length ≤ 1 ∧ calculate_diff A A = [] := by
  constructor
  · simp only [calculate_diff]
    split_ifs <;> simp
  · simp [calculate_diff]

/-- Claim C8: `FileManagerPool.get_manager` is idempotent per key: a second
call with the same path returns the same manager and leaves the pool
unchanged (so both handles denote the one pooled entry), the returned
manager is the one stored under the key, a previously-unseen key triggers
exactly one construction (one new entry, freshly loaded), and a key
already present is returned as-is without construction. -/
theorem registry_resolve_per_key (disk : String → List Char)
    (pool : FileManagerPool) (fp : String) :
    FileManagerPool.get_manager disk (FileManagerPool.get_manager disk pool fp).1 fp =
      ((FileManagerPool.get_manager disk pool fp).1,
       (FileManagerPool.get_manager disk pool fp).2) ∧
    lookupFM (FileManagerPool.get_manager disk pool fp).1.managers fp =
      some (FileManagerPool.get_manager disk pool fp).2 ∧
    (lookupFM pool.managers fp = none →
       (FileManagerPool.get_manager disk pool fp).1.managers =
         (fp, initFileManager (disk fp)) :: pool.managers ∧
       (FileManagerPool.get_manager disk pool fp).2 = initFileManager (disk fp)) ∧
    (∀ m, lookupFM pool.managers fp = some m →
       FileManagerPool.get_manager disk pool fp = (pool, m)) := by
  cases hx : lookupFM pool.managers fp with
  | some m =>
    refine ⟨?_, ?_, ?_, ?_⟩
    · simp [FileManagerPool.get_manager, hx]
    · simp [FileManagerPool.get_manager, hx]
    · intro h; exact Option.noConfusion h
    · intro m' hm'
      have hmm : m = m' := Option.some.inj hm'
      subst hmm
      simp [FileManagerPool.get_manager, hx]
  | none =>
    have hstep : FileManagerPool.get_manager disk pool fp =
        ({ managers := (fp, initFileManager (disk fp)) :: pool.managers },
         initFileManager (disk fp)) := by
      simp [FileManagerPool.get_manager, hx]
    refine ⟨?_, ?_, fun _ => by rw [hstep]; exact ⟨rfl, rfl⟩, ?_⟩
    · rw [hstep]
      simp [FileManagerPool.get_manager, lookupFM]
    · rw [hstep]
      simp [lookupFM]
    · intro m hm; exact Option.noConfusion hm

/-- Claim C9: `apply_changes` with an empty change list and a matching or
absent expected version succeeds as a full mutation: the stored content is
rewritten unchanged and the version is incremented by 1. -/
theorem empty_patch_counts_as_mutation (fm : FileManager) :
    apply_changes fm [] none =
      ({ content := fm.content, version := fm.version + 1 }, true, "success") ∧
    apply_changes fm [] (some (fm.version : Int)) =
      ({ content := fm.content, version := fm.version + 1 }, true, "success") := by
  constructor <;>
    simp [apply_changes, applyChangesList, applyOps, update_full_content,
      increment_version, validate_version]

/-- Claim C10: a replace operation whose `length` key is absent is treated
as `length = 0`, a pure insertion at its position: for any in-bounds
position the operation succeeds (no rejection, no error) and inserts its
replacement text without deleting anything. -/
theorem missing_length_is_insert (content : List Char) (c : Change)
    (ht : c.type = "replace") (hl : c.length = none) (p : Nat)
    (hp : c.position = (p : Int)) (hle : p ≤ content.length) :
    applyOne content c = .ok (content.take p ++ c.content ++ content.drop p) := by
  have h3 : ¬(c.position < 0 ∨ c.position > (content.length : Int)) := by
    rw [hp]; omega
  have h1 : (c.position).toNat = p := by rw [hp]; omega
  have h4 : (0 : Int) ≤ c.position + (c.length).getD 0 := by
    rw [hp, hl]; simp
  have h2 : (c.position + (c.length).getD 0).toNat = p := by
    rw [hp, hl]; simp
  rw [applyOne, if_pos ht, if_neg h3, pySliceFrom, if_pos h4, h1, h2]

/-! ### Witnesses: the hypothesis-bearing claim theorems evaluated at
concrete inputs -/

/-- Witness for C2 at the text `"abc"` and an over-long replace at
position 1 with length 9. -/
theorem replace_range_validation_w :
    applyOne "abc".toList ⟨"replace", 1, some 9, "Z".toList⟩ =
      .ok ("abc".toList.take 1 ++
           (⟨"replace", 1, some 9, "Z".toList⟩ : Change).content) :=
  (replace_range_validation "abc".toList ⟨"replace", 1, some 9, "Z".toList⟩
    rfl).2.2 1 9 (by decide) (by decide) (by decide) (by decide)

/-- Witness for C3 at a fresh manager and expected version 1. -/
theorem version_conflict_no_mutation_w :
    apply_changes ⟨[], 0⟩ [] (some 1) = (⟨[], 0⟩, false, "version_mismatch") :=
  version_conflict_no_mutation ⟨[], 0⟩ [] 1 (by decide)

/-- Witness for C4: a failed patch attempt (stale expected version) leaves
the version of a fresh manager at 0. -/
theorem version_counter_discipline_w :
    (apply_changes ⟨[], 0⟩ [] (some 5)).1.version = (⟨[], 0⟩ : FileManager).version :=
  (version_counter_discipline.2.2.1 ⟨[], 0⟩ [] (some 5)).2.1 (by decide)

/-- Witness for C5 on `"abcdef"` with ascending operations at positions 1
and 3. -/
theorem patch_application_order_w :
    applyChangesList "abcdef".toList
      [⟨"replace", ((1 : Nat) : Int), some ((1 : Nat) : Int), "X".toList⟩,
       ⟨"replace", ((3 : Nat) : Int), some ((2 : Nat) : Int), "YZ".toList⟩] =
    .ok ("abcdef".toList.take 1 ++ "X".toList ++
         (("abcdef".toList.take 3).drop (1 + 1)) ++ "YZ".toList ++
         "abcdef".toList.drop (3 + 2)) :=
  patch_application_order.2 "abcdef".toList "X".toList "YZ".toList 1 1 3 2
    (by decide) (by decide)

/-- Witness for C6 at the non-empty new text `"x"`. -/
theorem diff_degenerate_cases_w :
    calculate_diff [] "x".toList =
      [{ type := "replace", position := 0, length := some 0,
         content := "x".toList }] :=
  diff_degenerate_cases.1 "x".toList (by decide)

/-- Witness for C8: resolving the unseen key `"k"` in an empty pool
constructs and stores exactly one manager. -/
theorem registry_resolve_per_key_w :
    (FileManagerPool.get_manager (fun _ => ([] : List Char)) ⟨[]⟩ "k").1.managers =
      ("k", initFileManager []) :: (⟨[]⟩ : FileManagerPool).managers ∧
    (FileManagerPool.get_manager (fun _ => ([] : List Char)) ⟨[]⟩ "k").2 =
      initFileManager [] :=
  (registry_resolve_per_key (fun _ => []) ⟨[]⟩ "k").2.2.1 rfl

/-- Witness for C10: a length-less replace at position 1 of `"ab"` is a
pure insertion. -/
theorem missing_length_is_insert_w :
    applyOne "ab".toList ⟨"replace", 1, none, "Z".toList⟩ =
      .ok ("ab".toList.take 1 ++
           (⟨"replace", 1, none, "Z".toList⟩ : Change).content ++
           "ab".toList.drop 1) :=
  missing_length_is_insert "ab".toList ⟨"replace", 1, none, "Z".toList⟩
    rfl rfl 1 (by decide) (by decide)
